import Mathlib

/-!
# Verification of the Chative-core-poc-v1 conversation-agent core

Shallow embedding of the Go sources of `Chative-core-poc-v1` (graph builder,
tool-call budget tracker, branch conditions, cost accumulator, and the
delimited NLU-response parser) together with proofs of the specification
claims about them.

Conventions of the embedding:
* Go `int` is modelled as `Int`.
* Go `float64` is modelled by exact rational arithmetic (the spec states its
  numeric claims "within floating-point tolerance", and every numeric value
  the claims touch comes from exact decimal literals).  Values are carried in
  the structural fraction type `Q` below — whose operations are
  kernel-reducible, unlike `ℚ`'s — and interpreted into `ℚ` by `Q.toRat`;
  theorems state numeric facts through that interpretation.
* Go strings are Lean `String`s; string processing is done on `List Char`
  (`String.data`) with structurally recursive helpers mirroring the Go
  standard-library functions used by the source (`strings.Split`,
  `strings.SplitN`, `strings.TrimSpace`, `strings.ToLower`,
  `strings.HasPrefix`, `len` in UTF-8 bytes).  Lean strings are always valid
  UTF-8, so `utf8.ValidString` is identically true in the embedding; no claim
  depends on invalid-UTF-8 inputs.
* Stateful Go code (`*model.AppState` mutation in the Eino state handlers)
  becomes explicit state passing: each handler takes and returns an
  `AppState`.
-/

namespace Chative

/-! ## Exact fractions interpreting Go `float64` -/

/-- A fraction with a positive denominator.  Operations below never
normalize, so they are plain `Int` computations the kernel can evaluate;
`Q.toRat` interprets a fraction as the rational number it denotes. -/
structure Q where
  num : Int
  den : Int
  den_pos : 0 < den

instance : DecidableEq Q := fun a b =>
  decidable_of_iff (a.num = b.num ∧ a.den = b.den) (by
    constructor
    · rintro ⟨h1, h2⟩
      cases a; cases b; simp_all
    · rintro rfl; exact ⟨rfl, rfl⟩)

def Q.ofInt (n : Int) : Q := ⟨n, 1, one_pos⟩

/-- The decimal `m × 10^(-k)` (e.g. `Q.dec 94 2` is `0.94`). -/
def Q.dec (m : Int) (k : Nat) : Q := ⟨m, 10 ^ k, pow_pos (by norm_num) k⟩

def Q.mul (a b : Q) : Q := ⟨a.num * b.num, a.den * b.den, mul_pos a.den_pos b.den_pos⟩

def Q.add (a b : Q) : Q :=
  ⟨a.num * b.den + b.num * a.den, a.den * b.den, mul_pos a.den_pos b.den_pos⟩

def Q.neg (a : Q) : Q := ⟨-a.num, a.den, a.den_pos⟩

/-- Division by a positive integer constant. -/
def Q.divPos (a : Q) (d : Int) (h : 0 < d) : Q := ⟨a.num, a.den * d, mul_pos a.den_pos h⟩

/-- The `<` relation on denoted rational values (valid because denominators
are positive). -/
def Q.lt (a b : Q) : Prop := a.num * b.den < b.num * a.den

def Q.le (a b : Q) : Prop := a.num * b.den ≤ b.num * a.den

instance (a b : Q) : Decidable (a.lt b) := inferInstanceAs (Decidable (_ < _))
instance (a b : Q) : Decidable (a.le b) := inferInstanceAs (Decidable (_ ≤ _))

/-- The rational number a fraction denotes. -/
def Q.toRat (q : Q) : ℚ := (q.num : ℚ) / (q.den : ℚ)

theorem Q.den_cast_pos (q : Q) : (0 : ℚ) < (q.den : ℚ) := by
  exact_mod_cast q.den_pos

theorem Q.den_cast_ne (q : Q) : (q.den : ℚ) ≠ 0 := ne_of_gt q.den_cast_pos

theorem Q.toRat_lt {a b : Q} : a.toRat < b.toRat ↔ a.lt b := by
  unfold Q.toRat Q.lt
  rw [div_lt_div_iff a.den_cast_pos b.den_cast_pos]
  exact_mod_cast Iff.rfl

theorem Q.toRat_le {a b : Q} : a.toRat ≤ b.toRat ↔ a.le b := by
  unfold Q.toRat Q.le
  rw [div_le_div_iff a.den_cast_pos b.den_cast_pos]
  exact_mod_cast Iff.rfl

theorem Q.toRat_eq {a b : Q} : a.toRat = b.toRat ↔ a.num * b.den = b.num * a.den := by
  unfold Q.toRat
  rw [div_eq_div_iff a.den_cast_ne b.den_cast_ne]
  exact_mod_cast Iff.rfl

theorem Q.toRat_ofInt (n : Int) : (Q.ofInt n).toRat = (n : ℚ) := by
  simp [Q.ofInt, Q.toRat]

theorem Q.toRat_dec (m : Int) (k : Nat) : (Q.dec m k).toRat = (m : ℚ) / 10 ^ k := by
  simp [Q.dec, Q.toRat]

theorem Q.toRat_mul (a b : Q) : (a.mul b).toRat = a.toRat * b.toRat := by
  unfold Q.toRat Q.mul
  push_cast
  rw [div_mul_div_comm]

theorem Q.toRat_add (a b : Q) : (a.add b).toRat = a.toRat + b.toRat := by
  unfold Q.toRat Q.add
  push_cast
  rw [div_add_div _ _ a.den_cast_ne b.den_cast_ne]
  ring_nf

theorem Q.toRat_neg (a : Q) : a.neg.toRat = -a.toRat := by
  unfold Q.toRat Q.neg
  push_cast
  rw [neg_div]

theorem Q.toRat_divPos (a : Q) (d : Int) (h : 0 < d) :
    (a.divPos d h).toRat = a.toRat / (d : ℚ) := by
  unfold Q.toRat Q.divPos
  push_cast
  rw [div_div]

/-! ## Go standard-library string primitives (models) -/

/-- Unicode white space as recognised by Go's `unicode.IsSpace`
(Latin-1 range plus the White_Space property). -/
def isGoSpace (c : Char) : Bool :=
  decide (c.toNat = 0x09 ∨ c.toNat = 0x0A ∨ c.toNat = 0x0B ∨ c.toNat = 0x0C ∨
    c.toNat = 0x0D ∨ c.toNat = 0x20 ∨ c.toNat = 0x85 ∨ c.toNat = 0xA0 ∨
    c.toNat = 0x1680 ∨ (0x2000 ≤ c.toNat ∧ c.toNat ≤ 0x200A) ∨
    c.toNat = 0x2028 ∨ c.toNat = 0x2029 ∨ c.toNat = 0x202F ∨
    c.toNat = 0x205F ∨ c.toNat = 0x3000)

/-- Model of Go `strings.TrimSpace` on a character list. -/
def goTrim (s : List Char) : List Char :=
  ((s.dropWhile isGoSpace).reverse.dropWhile isGoSpace).reverse

/-- Number of UTF-8 bytes of a character (Go `len` counts bytes). -/
def charBytes (c : Char) : Nat :=
  if c.toNat < 0x80 then 1
  else if c.toNat < 0x800 then 2
  else if c.toNat < 0x10000 then 3
  else 4

/-- Model of Go `len(s)` (UTF-8 byte length). -/
def utf8Len (s : List Char) : Nat :=
  (s.map charBytes).sum

/-- Model of Go slicing `s[:n]` for a byte budget `n`: the longest prefix
whose byte length stays within `n`.  (Go may cut a multi-byte character in
half at the boundary; the resulting dangling bytes could only invalidate the
final record, which no claim depends on.) -/
def takeBytes (n : Nat) : List Char → List Char
  | [] => []
  | c :: t => if charBytes c ≤ n then c :: takeBytes (n - charBytes c) t else []

/-- Model of Go `strings.ToLower` (per-rune Unicode simple lowering).
Modelled exactly on every rune whose Go lowercase lands in ASCII `a`–`z` —
these are `A`–`Z`, U+0130 (LATIN CAPITAL LETTER I WITH DOT ABOVE, lowering
to `i`) and U+212A (KELVIN SIGN, lowering to `k`), the only such code points
in the Unicode simple case tables — and as the identity on every other rune.
Any other rune's Go lowercase is again a non-ASCII rune, and the sole
consumer of this result, the byte-wise ASCII check `isISO639_3`, rejects a
non-ASCII rune whether or not it was lowered; so record acceptance and the
stored code agree with Go on every input. -/
def goToLower (s : List Char) : List Char :=
  s.map fun c =>
    if 'A' ≤ c ∧ c ≤ 'Z' then Char.ofNat (c.toNat + 32)
    else if c = '\u0130' then 'i'
    else if c = '\u212A' then 'k'
    else c

/-- Splitting worker for Go `strings.Split` with a non-empty separator:
scan left to right, cutting at each occurrence of `sep`.  `fuel` bounds the
recursion (any value ≥ the input length is exact). -/
def goSplitAux (sep : List Char) : Nat → List Char → List Char → List (List Char)
  | 0, acc, rest => [acc.reverse ++ rest]
  | _ + 1, acc, [] => [acc.reverse]
  | fuel + 1, acc, c :: t =>
    if sep.isPrefixOf (c :: t) then
      acc.reverse :: goSplitAux sep fuel [] ((c :: t).drop sep.length)
    else
      goSplitAux sep fuel (c :: acc) t

/-- Model of Go `strings.Split` (non-empty separator). -/
def goSplit (s sep : List Char) : List (List Char) :=
  goSplitAux sep (s.length + 1) [] s

/-- Join a list of character lists with a separator (Go `strings.Join`). -/
def goJoin (sep : List Char) : List (List Char) → List Char
  | [] => []
  | [x] => x
  | x :: y :: t => x ++ sep ++ goJoin sep (y :: t)

/-- Model of Go `strings.SplitN s sep n` for `n > 0`: the first `n-1` cuts of
the full split, with the remainder rejoined into the final element. -/
def goSplitN (s sep : List Char) (n : Nat) : List (List Char) :=
  let ps := goSplit s sep
  if ps.length ≤ n then ps
  else ps.take (n - 1) ++ [goJoin sep (ps.drop (n - 1))]

/-- First index of `sep` in `s`, if any (Go `strings.Index ≥ 0` test). -/
def goIndexOf (sep : List Char) : List Char → Option Nat
  | [] => if sep = [] then some 0 else none
  | c :: t =>
    if sep.isPrefixOf (c :: t) then some 0
    else (goIndexOf sep t).map (· + 1)

/-- Model of Go `strconv.ParseFloat` composed with the source's
NaN/Infinity rejection (`parseFloatInRange` rejects `NaN`/`±Inf` right after
parsing, so strings such as `"inf"`/`"nan"`, and overflowing decimals, are
observationally rejected; underscore digit separators and hexadecimal floats
are not modelled).  Grammar: optional sign, decimal digits with optional
fraction (at least one digit overall), optional decimal exponent.  The value
is exact, the idealisation of binary rounding sanctioned by the spec's
"within floating-point tolerance". -/
def parseGoFloat (s : List Char) : Option Q :=
  let (neg, s₁) :=
    match s with
    | '+' :: t => (false, t)
    | '-' :: t => (true, t)
    | t => (false, t)
  let intPart := s₁.takeWhile Char.isDigit
  let rest₁ := s₁.dropWhile Char.isDigit
  let (fracPart, rest₂) :=
    match rest₁ with
    | '.' :: t => (t.takeWhile Char.isDigit, t.dropWhile Char.isDigit)
    | t => ([], t)
  if intPart = [] ∧ fracPart = [] then none
  else
    let readDigits : List Char → Int := fun l =>
      l.foldl (fun a c => a * 10 + ((c.toNat : Int) - ('0'.toNat : Int))) 0
    let mantissa : Int := readDigits (intPart ++ fracPart)
    let fracLen : Int := fracPart.length
    let expCont : Option Int :=
      match rest₂ with
      | [] => some 0
      | 'e' :: t => parseExp t
      | 'E' :: t => parseExp t
      | _ => none
    match expCont with
    | none => none
    | some e =>
      let e10 : Int := e - fracLen
      let v : Q :=
        if 0 ≤ e10 then Q.ofInt (mantissa * 10 ^ e10.toNat)
        else Q.dec mantissa (-e10).toNat
      some (if neg then v.neg else v)
where
  /-- Exponent suffix: optional sign then at least one digit, nothing after. -/
  parseExp (t : List Char) : Option Int :=
    let (eneg, t₁) :=
      match t with
      | '+' :: u => (false, u)
      | '-' :: u => (true, u)
      | u => (false, u)
    let ds := t₁.takeWhile Char.isDigit
    if ds = [] ∨ t₁.dropWhile Char.isDigit ≠ [] then none
    else
      let n : Int := ds.foldl (fun a c => a * 10 + ((c.toNat : Int) - ('0'.toNat : Int))) 0
      some (if eneg then -n else n)

/-! ## Data model (`internal/agent/model`) -/

/-- Message roles of the Eino `schema` package used by the source. -/
inductive Role where
  | system
  | user
  | assistant
  | tool
deriving DecidableEq, Repr

/-- A tool-call request attached to an assistant message
(`schema.ToolCall`; only the `ID` field is read by the embedded code). -/
structure ToolCall where
  id : String
deriving DecidableEq, Repr

/-- Token usage metadata of a model response (`schema.TokenUsage`). -/
structure TokenUsage where
  promptTokens : Int
  completionTokens : Int
  totalTokens : Int
deriving DecidableEq, Repr

/-- A chat message (`schema.Message`; the fields the embedded code touches).
`usage` models `ResponseMeta.Usage` (`none` when metadata is absent). -/
structure Message where
  role : Role
  content : String
  toolCallID : String := ""
  toolCalls : List ToolCall := []
  usage : Option TokenUsage := none
deriving DecidableEq, Repr

/-- An accepted intent record (`model.Intent`; metadata JSON not modelled —
per the source it never affects acceptance or any derived field). -/
structure Intent where
  name : String
  confidence : Q
  priority : Q
deriving DecidableEq

/-- An accepted entity record (`model.Entity`; the metadata-derived
`Position` field is not modelled, no claim touches it). -/
structure Entity where
  type : String
  value : String
  confidence : Q
deriving DecidableEq

/-- An accepted language record (`model.Language`). -/
structure Language where
  code : String
  confidence : Q
  isPrimary : Bool
deriving DecidableEq

/-- The sentiment slot (`model.Sentiment`); zero value `{label := "", confidence := 0}`. -/
structure Sentiment where
  label : String := ""
  confidence : Q := Q.ofInt 0
deriving DecidableEq

/-- Parser output (`model.NLUResponse`); `truncated`, `recordsCapped` and
`parsingErrors` model the `ParsingMetadata` diagnostic bag entries. -/
structure NLUResponse where
  intents : List Intent := []
  entities : List Entity := []
  languages : List Language := []
  sentiment : Sentiment := {}
  primaryIntent : String := ""
  primaryLanguage : String := ""
  importanceScore : Q := Q.ofInt 0
  truncated : Bool := false
  recordsCapped : Bool := false
  parsingErrors : List String := []
deriving DecidableEq

/-- Per-invocation graph state (`model.AppState`). -/
structure AppState where
  conversationID : String := ""
  history : List Message := []
  nluAnalysis : Option NLUResponse := none
  toolCallCount : Int := 0
  toolCallLimitReached : Bool := false
  toolCallIDSeq : Int := 0
  totalCostUSD : Q := Q.ofInt 0
deriving DecidableEq

/-- `model.QueryInput`. -/
structure QueryInput where
  conversationID : String
  query : String
deriving DecidableEq, Repr

/-! ## Budget tracker (`internal/agent/graph/nodes/utils.go`) -/

def DefaultMaxToolCalls : Int := 10

/-- `normalizeMaxToolCalls`: a non-positive configured value falls back to
the default. -/
def normalizeMaxToolCalls (n : Int) : Int :=
  if n ≤ 0 then DefaultMaxToolCalls else n

/-- `checkAndMarkToolLimit`: marks the state when another tool call would
exceed the limit; returns `true` exactly when it marked *now*. -/
def checkAndMarkToolLimit (state : AppState) (max : Int) : Bool × AppState :=
  let max := normalizeMaxToolCalls max
  if ¬state.toolCallLimitReached ∧ state.toolCallCount ≥ max then
    (true, { state with toolCallLimitReached := true })
  else
    (false, state)

/-- `incrementToolCallAndCheck`: increments the counter and marks the state
when the new count exceeds the limit; returns `true` when exceeded. -/
def incrementToolCallAndCheck (state : AppState) (max : Int) : Bool × AppState :=
  let max := normalizeMaxToolCalls max
  let state := { state with toolCallCount := state.toolCallCount + 1 }
  if state.toolCallCount > max then
    (true, { state with toolCallLimitReached := true })
  else
    (false, state)

/-! ## Node name constants

The Go file defining the `Node*` constants is not among the provided sources
(only their uses in `graph.go` and the nodes package are).  Modelled from the
spec: the node names are opaque distinct strings; `END` models the external
`compose.END` marker.  No claim observes the exact values, only which
constant a condition returns. -/

def NodeInputConverter : String := "InputConverter"
def NodeNLUChatModel : String := "NLUChatModel"
def NodeParser : String := "Parser"
def NodeHumanHandoff : String := "HumanHandoff"
def NodeResponseAssembler : String := "ResponseAssembler"
def NodeResponseChatModel : String := "ResponseChatModel"
def NodeToolExecutor : String := "ToolExecutor"
def START : String := "start"
def END : String := "end"

/-! ## Cost accumulator (`internal/agent/model`, pricing file) -/

/-- USD cost per 1M tokens for input/output (`model.Pricing`). -/
structure Pricing where
  inputPerM : Q := Q.ofInt 0
  outputPerM : Q := Q.ofInt 0
deriving DecidableEq

/-- The hardcoded pricing table (`defaultPricing`). -/
def defaultPricing (model : String) : Option Pricing :=
  if model = "gemini-2.5-flash" then
    some { inputPerM := Q.dec 30 2, outputPerM := Q.dec 250 2 }
  else if model = "gemini-2.5-flash-lite" then
    some { inputPerM := Q.dec 10 2, outputPerM := Q.dec 40 2 }
  else none

/-- `CostEnabled`: always true. -/
def CostEnabled : Bool := true

/-- `ResolvePricing`: hardcoded pricing, zero-rate pair for unknown models. -/
def ResolvePricing (model : String) : Pricing :=
  match defaultPricing model with
  | some p => p
  | none => {}

/-- `ComputeCost`: convert token usage to USD cost using per-1M pricing;
returns `(inputCost, outputCost, total)`. -/
def ComputeCost (usage : Option TokenUsage) (p : Pricing) : Q × Q × Q :=
  match usage with
  | none => (Q.ofInt 0, Q.ofInt 0, Q.ofInt 0)
  | some u =>
    let inputCost := (p.inputPerM.mul (Q.ofInt u.promptTokens)).divPos 1000000 (by norm_num)
    let outputCost := (p.outputPerM.mul (Q.ofInt u.completionTokens)).divPos 1000000 (by norm_num)
    (inputCost, outputCost, inputCost.add outputCost)

/-! ## Node handlers and branch conditions (nodes package) -/

/-- `NewInputConverterPreHandler`: seeds the conversation id and resets the
budget counters and the accumulated cost at the start of every invocation. -/
def inputConverterPreHandler (input : QueryInput) (s : AppState) : AppState :=
  let s := if s.conversationID = "" then { s with conversationID := input.conversationID } else s
  { s with
    toolCallCount := 0
    toolCallLimitReached := false
    toolCallIDSeq := 0
    totalCostUSD := Q.ofInt 0 }

/-- The synthetic system-authored wrap-up notice appended by the response
pre-handler when the tool-call limit is hit (`fmt.Sprintf` in
`NewResponseChatModelPreHandler`). -/
def wrapUpMessage (maxToolCalls : Int) : Message :=
  { role := Role.system
    content := "SYSTEM NOTICE: You have reached the maximum tool call limit (" ++
      toString maxToolCalls ++
      "). Please synthesize a helpful response using the information you've already gathered. " ++
      "Acknowledge any limitations in your response if you couldn't complete all necessary tool calls." }

/-- The backward history search of `NewResponseChatModelPreHandler`: the most
recent assistant message carrying tool calls, if any (the Go loop walks
`state.History` from the end and `break`s at the first such message). -/
def lastAssistantWithToolCalls (history : List Message) : Option Message :=
  history.reverse.find? fun m => m.role = Role.assistant ∧ m.toolCalls ≠ []

/-- The tool-call-id backfill of `NewResponseChatModelPreHandler`: when the
last inbound message is a tool result with a blank `tool_call_id`, borrow the
first tool-call id of the most recent assistant message that carried tool
calls (only when that id is itself non-blank after trimming). -/
def backfillToolCallID (history : List Message) (inMsgs : List Message) : List Message :=
  match inMsgs.getLast? with
  | none => inMsgs
  | some last =>
    if last.role = Role.tool ∧ goTrim last.toolCallID.data = [] then
      match lastAssistantWithToolCalls history with
      | none => inMsgs
      | some m =>
        match m.toolCalls.head? with
        | none => inMsgs
        | some tc =>
          if goTrim tc.id.data ≠ [] then
            inMsgs.dropLast ++ [{ last with toolCallID := tc.id }]
          else inMsgs
    else inMsgs

/-- `NewResponseChatModelPreHandler`: backfill the tool-call id, append the
inbound messages to the history, and, when `checkAndMarkToolLimit` marks the
limit now, append the synthetic wrap-up notice.  Returns the messages handed
to the model (the whole history) and the new state. -/
def responseChatModelPreHandler (maxToolCalls : Int) (inMsgs : List Message)
    (state : AppState) : List Message × AppState :=
  let inMsgs := backfillToolCallID state.history inMsgs
  let state := { state with history := state.history ++ inMsgs }
  let (markedNow, state) := checkAndMarkToolLimit state maxToolCalls
  let state :=
    if markedNow then
      { state with history := state.history ++ [wrapUpMessage (normalizeMaxToolCalls maxToolCalls)] }
    else state
  (state.history, state)

/-- The tool-call id normalization of `NewResponseChatModelPostHandler`:
synthesize sequential ids (`call_<seq>`) for tool calls whose id is blank. -/
def normalizeToolCallIDs (seq : Int) : List ToolCall → List ToolCall × Int
  | [] => ([], seq)
  | tc :: t =>
    if goTrim tc.id.data = [] then
      let seq := seq + 1
      let (rest, seq') := normalizeToolCallIDs seq t
      ({ tc with id := "call_" ++ toString seq } :: rest, seq')
    else
      let (rest, seq') := normalizeToolCallIDs seq t
      (tc :: rest, seq')

/-- `NewResponseChatModelPostHandler`: accumulate the usage cost into the
state, normalize blank tool-call ids, and append the model output to the
history.  (The conditional save of the final assistant content to the
external store is an external effect, not modelled.)  Returns the outbound
message and the new state. -/
def responseChatModelPostHandler (modelName : String) (out : Message)
    (state : AppState) : Message × AppState :=
  let state :=
    if CostEnabled ∧ out.usage.isSome then
      let pricing := ResolvePricing modelName
      let c := ComputeCost out.usage pricing
      { state with totalCostUSD := state.totalCostUSD.add c.2.2 }
    else state
  let (out, state) :=
    if out.toolCalls ≠ [] then
      let (tcs, seq) := normalizeToolCallIDs state.toolCallIDSeq out.toolCalls
      ({ out with toolCalls := tcs }, { state with toolCallIDSeq := seq })
    else (out, state)
  let state := { state with history := state.history ++ [out] }
  (out, state)

/-- `NewNLUChatModelPostHandler`: the cost-accumulation part (the NLU post
handler shares the cost logic of the response post handler and appends
nothing to the history). -/
def nluChatModelPostHandler (modelName : String) (out : Message)
    (state : AppState) : AppState :=
  if CostEnabled ∧ out.usage.isSome then
    let pricing := ResolvePricing modelName
    let c := ComputeCost out.usage pricing
    { state with totalCostUSD := state.totalCostUSD.add c.2.2 }
  else state

/-- `NewHumanHandoffCondition`: route to human handoff on high-confidence
negative sentiment (`label == "negative" && confidence > 0.94`), else to the
response assembler. -/
def humanHandoffCondition (input : NLUResponse) : String :=
  if input.sentiment.label = "negative" ∧ (Q.dec 94 2).lt input.sentiment.confidence then
    NodeHumanHandoff
  else
    NodeResponseAssembler

/-- `NewToolExecutorCondition`: route to `END` when the tool-call limit was
reached, else to the tool executor iff the output carries tool calls. -/
def toolExecutorCondition (limitReached : Bool) (input : Message) : String :=
  if limitReached then END
  else if input.toolCalls.length > 0 then NodeToolExecutor
  else END

/-- `NewToolExecutorPreHandler`: increment the tool-call counter and mark the
state when the limit is exceeded (the handler then just logs and passes the
message through).  Returns the `exceeded` result alongside the new state. -/
def toolExecutorPreHandler (maxToolCalls : Int) (state : AppState) : Bool × AppState :=
  incrementToolCallAndCheck state maxToolCalls

/-! ## Graph topology (`internal/agent/graph/graph.go`) -/

/-- The fixed edge set added by `addEdges` (straight-line connections). -/
def graphEdges : List (String × String) :=
  [(START, NodeInputConverter),
   (NodeInputConverter, NodeNLUChatModel),
   (NodeNLUChatModel, NodeParser),
   (NodeHumanHandoff, END),
   (NodeResponseAssembler, NodeResponseChatModel),
   (NodeToolExecutor, NodeResponseChatModel)]

/-- The two branch points added by `addBranches`: the branching node and the
set of allowed successors of its condition. -/
def graphBranches : List (String × List String) :=
  [(NodeParser, [NodeHumanHandoff, NodeResponseAssembler]),
   (NodeResponseChatModel, [NodeToolExecutor, END])]

/-- `compile`: the configured step ceiling handed to the executor
(`compose.WithMaxRunSteps`). -/
def maxRunSteps (toolMaxCalls : Int) : Int :=
  if 10 + toolMaxCalls * 2 < 20 then 20 else 10 + toolMaxCalls * 2

/-! ## Step executor model

Modelled from the spec: the step-limit enforcement itself lives in the
external Eino executor (`compose.Runnable`), outside this repository; §4.2 of
the spec specifies it ("the executor aborts the invocation with a fatal 'too
many steps' error if the cumulative number of step executions exceeds a
configured ceiling").  `runExec` runs a successor function until it reports a
terminal step (`none`), aborting once the ceiling is exhausted. -/

inductive RunOutcome where
  | finished (node : String)
  | tooManySteps
deriving DecidableEq, Repr

/-- Bounded execution: at most `fuel` step executions, then the fatal
step-ceiling error. -/
def runExec (next : String → Option String) : Nat → String → RunOutcome
  | 0, _ => RunOutcome.tooManySteps
  | fuel + 1, cur =>
    match next cur with
    | none => RunOutcome.finished cur
    | some n => runExec next fuel n

/-! ## Delimited-response parser (`internal/agent/graph/parsers`) -/

def recDelim : List Char := ['#', '#']
def tupDelim : List Char := ['<', '|', '|', '>']
def endDelim : List Char := "<|COMPLETE|>".data

def maxContentLen : Nat := 128 * 1024
def maxRecords : Nat := 500
def maxTupleLen : Nat := 8 * 1024
def maxMetaLen : Nat := 4 * 1024
def maxErrSnippet : Nat := 200

/-- `safeSnippet`: trim, cap at `maxErrSnippet` bytes. -/
def safeSnippet (s : List Char) : List Char :=
  let s := goTrim s
  if utf8Len s ≤ maxErrSnippet then s else takeBytes maxErrSnippet s

/-- `rawTuple` of the parser: record type and the split fields. -/
structure RawTuple where
  type : List Char
  parts : List (List Char)

/-- `parseRawTuple`: reject empty or oversized records, strip the outer
parentheses, split into at most 5 fields. -/
def parseRawTuple (s : List Char) : Option RawTuple :=
  if s = [] then none
  else if utf8Len s > maxTupleLen then none
  else
    let s := goTrim s
    if s.length < 2 ∨ s.head? ≠ some '(' ∨ s.getLast? ≠ some ')' then none
    else
      let inner := (s.drop 1).dropLast
      let parts := goSplitN inner tupDelim 5
      if parts.length < 2 then none
      else some { type := goTrim (parts.getD 0 []), parts := parts }

/-- `parseFloatInRange`: parse (trimmed), reject NaN/Inf (see
`parseGoFloat`) and out-of-range values. -/
def parseFloatInRange (s : List Char) (lo hi : Q) : Option Q :=
  match parseGoFloat (goTrim s) with
  | none => none
  | some v => if v.lt lo ∨ hi.lt v then none else some v

/-- `parseMeta`, modelled up to the `json.Unmarshal` call: the emptiness,
size and outer-brace checks are exact; the JSON decoding itself is not
modelled (assumed to succeed), which can only affect the warning
diagnostics — a metadata failure never drops a record and no claim observes
metadata contents. -/
def parseMetaOk (s : List Char) : Bool :=
  let s := goTrim s
  if s = [] then true
  else if utf8Len s > maxMetaLen then false
  else decide (s.head? = some '{' ∧ s.getLast? = some '}')

/-- `isISO639_3`: exactly 3 bytes, each a lowercase ASCII letter.  (Stated
on characters: a multi-byte character both fails the byte test in Go and the
character test here, so the two are extensionally equal.) -/
def isISO639_3 (code : List Char) : Bool :=
  utf8Len code = 3 && code.all fun c => decide ('a' ≤ c ∧ c ≤ 'z')

/-- The `case "intent"` branch of the record switch: the accepted intent (if
any) and the diagnostic messages added.  (`mustValidUTF8` is identically
true on Lean strings.) -/
def parseIntentRecord (parts : List (List Char)) : Option Intent × List String :=
  if parts.length < 4 then (none, ["intent: insufficient parts"])
  else if goTrim (parts.getD 1 []) = [] then (none, ["intent: invalid name utf8"])
  else
    match parseFloatInRange (parts.getD 2 []) (Q.ofInt 0) (Q.ofInt 1) with
    | none => (none, ["intent: invalid confidence"])
    | some conf =>
      match parseFloatInRange (parts.getD 3 []) (Q.ofInt 0) (Q.ofInt 1) with
      | none => (none, ["intent: invalid priority"])
      | some prio =>
        (some { name := ⟨goTrim (parts.getD 1 [])⟩, confidence := conf, priority := prio },
         if 5 ≤ parts.length ∧ ¬parseMetaOk (parts.getD 4 []) then
           ["intent: invalid metadata json"]
         else [])

/-- The `case "entity"` branch of the record switch. -/
def parseEntityRecord (parts : List (List Char)) : Option Entity × List String :=
  if parts.length < 4 then (none, ["entity: insufficient parts"])
  else if goTrim (parts.getD 1 []) = [] then (none, ["entity: invalid type utf8"])
  else if goTrim (parts.getD 2 []) = [] then (none, ["entity: invalid value utf8"])
  else
    match parseFloatInRange (parts.getD 3 []) (Q.ofInt 0) (Q.ofInt 1) with
    | none => (none, ["entity: invalid confidence"])
    | some conf =>
      (some { type := ⟨goTrim (parts.getD 1 [])⟩, value := ⟨goTrim (parts.getD 2 [])⟩,
              confidence := conf },
       if 5 ≤ parts.length ∧ ¬parseMetaOk (parts.getD 4 []) then
         ["entity: invalid metadata json"]
       else [])

/-- The `case "language"` branch of the record switch: the code field is
trimmed and *lowercased* before the ISO-639-3 shape check; `isPrimary` holds
iff the trimmed flag field equals `"1"`. -/
def parseLanguageRecord (parts : List (List Char)) : Option Language × List String :=
  if parts.length < 4 then (none, ["language: insufficient parts"])
  else if ¬isISO639_3 (goToLower (goTrim (parts.getD 1 []))) then
    (none, ["language: invalid code"])
  else
    match parseFloatInRange (parts.getD 2 []) (Q.ofInt 0) (Q.ofInt 1) with
    | none => (none, ["language: invalid confidence"])
    | some conf =>
      (some { code := ⟨goToLower (goTrim (parts.getD 1 []))⟩, confidence := conf,
              isPrimary := decide (goTrim (parts.getD 3 []) = ['1']) },
       if 5 ≤ parts.length ∧ ¬parseMetaOk (parts.getD 4 []) then
         ["language: invalid metadata json"]
       else [])

/-- The `case "sentiment"` branch of the record switch (the
polarity/subjectivity sanitisation only rewrites metadata, not modelled). -/
def parseSentimentRecord (parts : List (List Char)) : Option Sentiment × List String :=
  if parts.length < 3 then (none, ["sentiment: insufficient parts"])
  else if goTrim (parts.getD 1 []) = [] then (none, ["sentiment: invalid label utf8"])
  else
    match parseFloatInRange (parts.getD 2 []) (Q.ofInt 0) (Q.ofInt 1) with
    | none => (none, ["sentiment: invalid confidence"])
    | some conf =>
      (some { label := ⟨goTrim (parts.getD 1 [])⟩, confidence := conf },
       if 4 ≤ parts.length ∧ ¬parseMetaOk (parts.getD 3 []) then
         ["sentiment: invalid metadata json"]
       else [])

/-- The record loop of `ParseNLUResponse`: `processed` records already
counted (cap at `maxRecords` with the capping flag), empty records and the
(unreachable) bare end marker skipped, then the per-type switch.  A
sentiment record replaces the sentiment slot; other accepted records are
appended in input order. -/
def processRecords : Nat → NLUResponse → List (List Char) → NLUResponse
  | _, resp, [] => resp
  | processed, resp, record :: rest =>
    if processed ≥ maxRecords then { resp with recordsCapped := true }
    else
      let record := goTrim record
      if record = [] ∨ record = endDelim then processRecords processed resp rest
      else
        match parseRawTuple record with
        | none =>
          processRecords (processed + 1)
            { resp with parsingErrors :=
                resp.parsingErrors ++ ["bad_record: " ++ String.mk (safeSnippet record)] }
            rest
        | some rt =>
          let resp :=
            if rt.type = "intent".data then
              { resp with intents := resp.intents ++ (parseIntentRecord rt.parts).1.toList
                          parsingErrors := resp.parsingErrors ++ (parseIntentRecord rt.parts).2 }
            else if rt.type = "entity".data then
              { resp with entities := resp.entities ++ (parseEntityRecord rt.parts).1.toList
                          parsingErrors := resp.parsingErrors ++ (parseEntityRecord rt.parts).2 }
            else if rt.type = "language".data then
              { resp with languages := resp.languages ++ (parseLanguageRecord rt.parts).1.toList
                          parsingErrors := resp.parsingErrors ++ (parseLanguageRecord rt.parts).2 }
            else if rt.type = "sentiment".data then
              { resp with sentiment := (parseSentimentRecord rt.parts).1.getD resp.sentiment
                          parsingErrors := resp.parsingErrors ++ (parseSentimentRecord rt.parts).2 }
            else
              { resp with parsingErrors := resp.parsingErrors ++ ["unknown tuple type"] }
          processRecords (processed + 1) resp rest

/-- The `PrimaryIntent` fold of the derived-fields block: running best
confidence (seeded `-1.0`) and the name of the first intent to strictly
exceed it. -/
def pifStep (acc : Q × String) (it : Intent) : Q × String :=
  if acc.1.lt it.confidence then (it.confidence, it.name) else acc

def primaryIntentFold (intents : List Intent) : Q × String :=
  intents.foldl pifStep (Q.ofInt (-1), "")

/-- The `PrimaryLanguage` derivation: the first entry flagged primary, else
the highest-confidence entry (strict improvement, seeded `-1.0`), else
empty. -/
def primaryLanguageOf (ls : List Language) : String :=
  let firstPrimary :=
    match ls.find? (·.isPrimary) with
    | some l => l.code
    | none => ""
  if firstPrimary = "" then
    (ls.foldl
      (fun acc l => if acc.1.lt l.confidence then (l.confidence, l.code) else acc)
      (Q.ofInt (-1), "")).2
  else firstPrimary

/-- The `ImportanceScore` derivation: zero when no intents; otherwise
`conf*0.6 + prio*0.4` of the *first* intent whose name equals the primary
intent (the Go loop breaks at the first name match), with `(0,0)` defaults
when none matches. -/
def importanceScoreOf (intents : List Intent) (primaryIntent : String) : Q :=
  if intents = [] then Q.ofInt 0
  else
    let cp :=
      match intents.find? (fun it => it.name = primaryIntent) with
      | some it => (it.confidence, it.priority)
      | none => (Q.ofInt 0, Q.ofInt 0)
    (cp.1.mul (Q.dec 6 1)).add (cp.2.mul (Q.dec 4 1))

/-- `ParseNLUResponse`: truncate oversized content, cut at the completion
marker, split into records, run the record loop, then compute the derived
fields.  (The Go function's only error path is the panic-recovery handler;
the embedding is total, so the happy path is the whole function.) -/
def ParseNLUResponse (content : String) : NLUResponse :=
  let cs := content.data
  let truncated := decide (utf8Len cs > maxContentLen)
  let cs := if truncated then takeBytes maxContentLen cs else cs
  let cs :=
    match goIndexOf endDelim cs with
    | some i => cs.take i
    | none => cs
  let init : NLUResponse := { truncated := truncated }
  let resp := processRecords 0 init (goSplit cs recDelim)
  let pi := (primaryIntentFold resp.intents).2
  { resp with
    primaryIntent := pi
    primaryLanguage := primaryLanguageOf resp.languages
    importanceScore := importanceScoreOf resp.intents pi }

/-! ## The response-model ⇄ tool-executor loop

The wiring is that of `graph.go`: the response node runs with
`NewResponseChatModelPreHandler`/`PostHandler`, `NewToolExecutorCondition`
branches on its output, and the tool node (whose body is external) runs with
`NewToolExecutorPreHandler` and feeds back into the response node.  The
model outputs and the tool results are external inputs, so one loop run is
driven by an arbitrary finite list of rounds. -/

/-- One round's external inputs: the messages fed into the response
pre-handler (assembler output on the first round, tool output after) and
the response model's output message. -/
structure LoopRound where
  inMsgs : List Message
  modelOut : Message

/-- What the tool pre-handler observed on one tool step: the counter value
just after its increment, and `incrementToolCallAndCheck`'s exceeded
result. -/
structure ToolStepInfo where
  countAfterIncrement : Int
  exceeded : Bool
deriving DecidableEq, Repr

/-- Run the response ⇄ tool loop on the given rounds: response pre-handler,
model output, response post-handler, branch; on a tool route, the tool
pre-handler's increment, then the next round.  Stops at a terminal branch or
when the rounds run out.  Returns the final state and the per-tool-step
observations. -/
def respToolLoop (maxToolCalls : Int) (modelName : String) :
    AppState → List LoopRound → AppState × List ToolStepInfo
  | s, [] => (s, [])
  | s, round :: rest =>
    let s1 := (responseChatModelPreHandler maxToolCalls round.inMsgs s).2
    let post := responseChatModelPostHandler modelName round.modelOut s1
    if toolExecutorCondition post.2.toolCallLimitReached post.1 = NodeToolExecutor then
      let step := toolExecutorPreHandler maxToolCalls post.2
      let info : ToolStepInfo :=
        { countAfterIncrement := step.2.toolCallCount, exceeded := step.1 }
      let r := respToolLoop maxToolCalls modelName step.2 rest
      (r.1, info :: r.2)
    else (post.2, [])

/-! ## Helper lemmas -/

theorem Q.lt_iff_toRat {a b : Q} : a.lt b ↔ a.toRat < b.toRat := Q.toRat_lt.symm

theorem Q.not_lt_iff_toRat {a b : Q} : ¬a.lt b ↔ b.toRat ≤ a.toRat := by
  rw [← Q.toRat_lt, not_lt]

/-- The handoff threshold in `ℚ`: `(Q.dec 94 2).lt c` says `0.94 < c`. -/
theorem Q.dec94_lt_iff (c : Q) : (Q.dec 94 2).lt c ↔ (0.94 : ℚ) < c.toRat := by
  rw [← Q.toRat_lt, Q.toRat_dec]
  norm_num

theorem node_names_distinct :
    NodeToolExecutor ≠ END ∧ NodeHumanHandoff ≠ NodeResponseAssembler := by
  constructor <;> decide

/-! ## Claim theorems -/

/-- **C10.** For every configured maximum that is zero or negative, both
budget checks (`incrementToolCallAndCheck` used before tool execution and
`checkAndMarkToolLimit` used before response generation) behave exactly as
with the default limit `10` — so a non-positive budget neither disables tool
calling (a state below 10 calls is not marked) nor makes it unlimited (a
state at 10 calls is marked); for every positive configured maximum the
configured value is used unchanged. -/
theorem normalizeMaxToolCalls_spec (m : Int) :
    (m ≤ 0 →
      normalizeMaxToolCalls m = 10 ∧
      (∀ s : AppState,
        checkAndMarkToolLimit s m = checkAndMarkToolLimit s 10 ∧
        incrementToolCallAndCheck s m = incrementToolCallAndCheck s 10) ∧
      (∀ s : AppState, s.toolCallLimitReached = false →
        ((checkAndMarkToolLimit s m).1 = true ↔ 10 ≤ s.toolCallCount))) ∧
    (0 < m → normalizeMaxToolCalls m = m) := by
  constructor
  · intro h
    refine ⟨by simp [normalizeMaxToolCalls, DefaultMaxToolCalls, h], ?_, ?_⟩
    · intro s
      constructor
      · simp [checkAndMarkToolLimit, normalizeMaxToolCalls, DefaultMaxToolCalls, h]
      · simp [incrementToolCallAndCheck, normalizeMaxToolCalls, DefaultMaxToolCalls, h]
    · intro s hs
      by_cases hc : (10 : Int) ≤ s.toolCallCount <;>
        simp [checkAndMarkToolLimit, normalizeMaxToolCalls, DefaultMaxToolCalls, h, hs, hc]
  · intro h
    simp [normalizeMaxToolCalls]
    omega

/-- **C10 witness.** The non-positive budget `-3` behaves as the default 10
(not marked at 9 calls, marked at 10), and the positive budget 7 is used
unchanged. -/
theorem normalizeMaxToolCalls_spec_witness :
    (checkAndMarkToolLimit { toolCallCount := 9 } (-3) =
      checkAndMarkToolLimit { toolCallCount := 9 } 10) ∧
    ((checkAndMarkToolLimit { toolCallCount := 10 } (-3)).1 = true ↔
      10 ≤ ({ toolCallCount := 10 } : AppState).toolCallCount) ∧
    normalizeMaxToolCalls 7 = 7 :=
  ⟨((normalizeMaxToolCalls_spec (-3)).1 (by norm_num)).2.1 _ |>.1,
   ((normalizeMaxToolCalls_spec (-3)).1 (by norm_num)).2.2 _ rfl,
   (normalizeMaxToolCalls_spec 7).2 (by norm_num)⟩

/-- **C2.** The branch decision after response generation routes to `END`
whenever the tool-call limit flag is set, regardless of tool calls in the
output; with the flag clear it routes to the tool executor iff the output
carries at least one tool call, and to `END` otherwise. -/
theorem toolExecutorCondition_spec (msg : Message) :
    toolExecutorCondition true msg = END ∧
    (toolExecutorCondition false msg = NodeToolExecutor ↔ msg.toolCalls ≠ []) ∧
    (toolExecutorCondition false msg = END ↔ msg.toolCalls = []) := by
  refine ⟨rfl, ?_, ?_⟩ <;>
    cases h : msg.toolCalls <;>
      simp [toolExecutorCondition, h, NodeToolExecutor, END]

/-- **C5.** The branch decision after analysis routes to human handoff iff
the sentiment label is exactly `"negative"` and its confidence exceeds
`0.94`; otherwise it routes to response assembly.  In particular a sentiment
`{negative, 0.95}` routes to human handoff, and the handoff node's only
outgoing edge in the graph leads to `END`, so the response model is not on
that path. -/
theorem humanHandoffCondition_spec (resp : NLUResponse) :
    (humanHandoffCondition resp = NodeHumanHandoff ↔
      resp.sentiment.label = "negative" ∧ (0.94 : ℚ) < resp.sentiment.confidence.toRat) ∧
    (humanHandoffCondition resp = NodeResponseAssembler ↔
      ¬(resp.sentiment.label = "negative" ∧ (0.94 : ℚ) < resp.sentiment.confidence.toRat)) ∧
    humanHandoffCondition
      { sentiment := { label := "negative", confidence := Q.dec 95 2 } } = NodeHumanHandoff ∧
    graphEdges.filter (fun e => e.1 = NodeHumanHandoff) = [(NodeHumanHandoff, END)] ∧
    NodeResponseChatModel ≠ END := by
  refine ⟨?_, ?_, ?_, by decide, by decide⟩
  · rw [← Q.dec94_lt_iff]
    unfold humanHandoffCondition
    split
    · simp_all [NodeHumanHandoff, NodeResponseAssembler]
    · simp_all [NodeHumanHandoff, NodeResponseAssembler]
  · rw [← Q.dec94_lt_iff]
    unfold humanHandoffCondition
    split
    · simp_all [NodeHumanHandoff, NodeResponseAssembler]
    · simp_all [NodeHumanHandoff, NodeResponseAssembler]
  · unfold humanHandoffCondition
    rw [if_pos]
    exact ⟨rfl, by decide⟩

/-- Helper for C6: a successor function that always continues exhausts any
fuel budget and ends in the fatal step-ceiling outcome. -/
theorem runExec_always_loops (f : String → String) :
    ∀ (fuel : Nat) (start : String),
      runExec (fun s => some (f s)) fuel start = RunOutcome.tooManySteps := by
  intro fuel
  induction fuel with
  | zero => intro start; rfl
  | succ n ih => intro start; simpa [runExec] using ih (f start)

/-- **C6.** The step ceiling configured at graph compilation equals
`max(20, 10 + 2×ToolMaxCalls)`, and an execution whose branch decisions
always continue to a next step aborts with the fatal step-ceiling outcome
within that many step executions (the executor model grants exactly the
ceiling as fuel) instead of running forever. -/
theorem maxRunSteps_spec (m : Int) (f : String → String) (start : String) :
    maxRunSteps m = max 20 (10 + 2 * m) ∧
    runExec (fun s => some (f s)) (maxRunSteps m).toNat start = RunOutcome.tooManySteps := by
  constructor
  · unfold maxRunSteps
    rw [max_def]
    split <;> split <;> omega
  · exact runExec_always_loops f _ start

/-- Helper for C7: one response post-handler run adds exactly the call's
`ComputeCost` total to the accumulated cost (zero when usage is absent,
since the computation is skipped). -/
theorem responsePostHandler_cost (mn : String) (out : Message) (s : AppState) :
    (responseChatModelPostHandler mn out s).2.totalCostUSD.toRat =
      s.totalCostUSD.toRat + (ComputeCost out.usage (ResolvePricing mn)).2.2.toRat := by
  cases h : out.usage <;> by_cases ht : out.toolCalls = [] <;>
    simp [responseChatModelPostHandler, CostEnabled, h, ht, ComputeCost,
      Q.toRat_ofInt, Q.toRat_add]

/-- **C7.** The cost computation returns
`inputCost = inputRate × promptTokens / 1e6`,
`outputCost = outputRate × completionTokens / 1e6`, and
`total = inputCost + outputCost`; resolving an unknown model name yields the
zero-rate pricing pair and hence zero cost (`ResolvePricing` is total — never
an error); and the running total accumulated into the state by the response
post-handler equals the initial total plus the sum of each call's
individually computed total. -/
theorem ComputeCost_spec :
    (∀ (u : TokenUsage) (p : Pricing),
      (ComputeCost (some u) p).1.toRat =
        p.inputPerM.toRat * (u.promptTokens : ℚ) / 1000000 ∧
      (ComputeCost (some u) p).2.1.toRat =
        p.outputPerM.toRat * (u.completionTokens : ℚ) / 1000000 ∧
      (ComputeCost (some u) p).2.2.toRat =
        (ComputeCost (some u) p).1.toRat + (ComputeCost (some u) p).2.1.toRat) ∧
    (∀ name : String, name ≠ "gemini-2.5-flash" → name ≠ "gemini-2.5-flash-lite" →
      ResolvePricing name = { inputPerM := Q.ofInt 0, outputPerM := Q.ofInt 0 } ∧
      ∀ u : TokenUsage, (ComputeCost (some u) (ResolvePricing name)).2.2.toRat = 0) ∧
    (∀ (mn : String) (outs : List Message) (s : AppState),
      (outs.foldl (fun st out => (responseChatModelPostHandler mn out st).2) s).totalCostUSD.toRat =
        s.totalCostUSD.toRat +
          (outs.map fun out => (ComputeCost out.usage (ResolvePricing mn)).2.2.toRat).sum) := by
  refine ⟨?_, ?_, ?_⟩
  · intro u p
    refine ⟨?_, ?_, ?_⟩ <;>
      simp [ComputeCost, Q.toRat_divPos, Q.toRat_mul, Q.toRat_ofInt, Q.toRat_add]
  · intro name h1 h2
    have hp : ResolvePricing name = { inputPerM := Q.ofInt 0, outputPerM := Q.ofInt 0 } := by
      simp [ResolvePricing, defaultPricing, h1, h2]
    refine ⟨hp, fun u => ?_⟩
    rw [hp]
    simp [ComputeCost, Q.toRat_add, Q.toRat_divPos, Q.toRat_mul, Q.toRat_ofInt]
  · intro mn outs
    induction outs with
    | nil => intro s; simp
    | cons out rest ih =>
      intro s
      simp only [List.foldl_cons, List.map_cons, List.sum_cons, ih,
        responsePostHandler_cost]
      ring

/-- **C7 witness.** For the pricing pair `(1.0, 2.0)` per million and the
usages `(100, 50)` and `(200, 100)` of the spec's scenario, the accumulated
total equals the sum of the two individually computed totals; and the
unknown model name `"unknown-model"` resolves to the zero pricing pair. -/
theorem ComputeCost_spec_witness :
    (ComputeCost (some { promptTokens := 100, completionTokens := 50, totalTokens := 150 })
        { inputPerM := Q.ofInt 1, outputPerM := Q.ofInt 2 }).2.2.toRat =
      (ComputeCost (some { promptTokens := 100, completionTokens := 50, totalTokens := 150 })
        { inputPerM := Q.ofInt 1, outputPerM := Q.ofInt 2 }).1.toRat +
      (ComputeCost (some { promptTokens := 100, completionTokens := 50, totalTokens := 150 })
        { inputPerM := Q.ofInt 1, outputPerM := Q.ofInt 2 }).2.1.toRat ∧
    ResolvePricing "unknown-model" = { inputPerM := Q.ofInt 0, outputPerM := Q.ofInt 0 } :=
  ⟨(ComputeCost_spec.1 { promptTokens := 100, completionTokens := 50, totalTokens := 150 }
      { inputPerM := Q.ofInt 1, outputPerM := Q.ofInt 2 }).2.2,
   (ComputeCost_spec.2.1 "unknown-model" (by decide) (by decide)).1⟩

/-- Helper for C1: what `NewResponseChatModelPreHandler` does to the history
and the flag, split by the state it starts from.  The three cases together
say the wrap-up notice is appended *exactly* on the transition into the
limit (flag clear, count at or past the normalized maximum); a re-run in the
same condition starts from a set flag and appends nothing further. -/
theorem responsePreHandler_cases (maxCfg : Int) (inMsgs : List Message) (s : AppState) :
    (s.toolCallLimitReached = false → normalizeMaxToolCalls maxCfg ≤ s.toolCallCount →
      (responseChatModelPreHandler maxCfg inMsgs s).2.history =
        s.history ++ backfillToolCallID s.history inMsgs ++
          [wrapUpMessage (normalizeMaxToolCalls maxCfg)] ∧
      (responseChatModelPreHandler maxCfg inMsgs s).2.toolCallLimitReached = true) ∧
    (s.toolCallLimitReached = true →
      (responseChatModelPreHandler maxCfg inMsgs s).2.history =
        s.history ++ backfillToolCallID s.history inMsgs ∧
      (responseChatModelPreHandler maxCfg inMsgs s).2.toolCallLimitReached = true) ∧
    (s.toolCallLimitReached = false → s.toolCallCount < normalizeMaxToolCalls maxCfg →
      (responseChatModelPreHandler maxCfg inMsgs s).2.history =
        s.history ++ backfillToolCallID s.history inMsgs ∧
      (responseChatModelPreHandler maxCfg inMsgs s).2.toolCallLimitReached = false) := by
  refine ⟨?_, ?_, ?_⟩
  · intro hf hc
    simp [responseChatModelPreHandler, checkAndMarkToolLimit, hf, hc,
      show s.toolCallCount ≥ normalizeMaxToolCalls maxCfg from hc]
  · intro hf
    simp [responseChatModelPreHandler, checkAndMarkToolLimit, hf]
  · intro hf hc
    simp [responseChatModelPreHandler, checkAndMarkToolLimit, hf,
      show ¬s.toolCallCount ≥ normalizeMaxToolCalls maxCfg from not_le.mpr hc]

/-- **C1 (amended).** When the response pre-handler runs with the limit flag
still clear and the pre-existing tool-call count at or past the (normalized)
configured maximum, it appends exactly one synthetic system-authored wrap-up
notice after the inbound messages and marks the limit reached; running the
pre-handler again from the resulting state — the "same condition", the flag
now being set — appends the new inbound messages but no second notice, and
the flag stays set.  (The claim's other trigger, the flag being *already*
true on entry, appends no notice at all: see the counterexample.) -/
theorem responsePreHandler_wrapUp_spec (maxCfg : Int) (inA inB : List Message)
    (s : AppState) (hflag : s.toolCallLimitReached = false)
    (hcount : normalizeMaxToolCalls maxCfg ≤ s.toolCallCount) :
    (responseChatModelPreHandler maxCfg inA s).2.history =
      s.history ++ backfillToolCallID s.history inA ++
        [wrapUpMessage (normalizeMaxToolCalls maxCfg)] ∧
    (responseChatModelPreHandler maxCfg inA s).2.toolCallLimitReached = true ∧
    ((responseChatModelPreHandler maxCfg inB
        (responseChatModelPreHandler maxCfg inA s).2).2.history =
      (responseChatModelPreHandler maxCfg inA s).2.history ++
        backfillToolCallID (responseChatModelPreHandler maxCfg inA s).2.history inB ∧
     (responseChatModelPreHandler maxCfg inB
        (responseChatModelPreHandler maxCfg inA s).2).2.toolCallLimitReached = true) := by
  obtain ⟨h1, h2⟩ := (responsePreHandler_cases maxCfg inA s).1 hflag hcount
  exact ⟨h1, h2, (responsePreHandler_cases maxCfg inB _).2.1 h2⟩

/-- **C1 witness.** At the concrete state with a clear flag and 10 prior
tool calls against the default budget, the pre-handler appends exactly the
wrap-up notice (the history was empty and no messages were inbound) and
marks the limit; a second run appends nothing further. -/
theorem responsePreHandler_wrapUp_witness :
    (responseChatModelPreHandler 10 [] { toolCallCount := 10 }).2.history =
      [wrapUpMessage 10] ∧
    (responseChatModelPreHandler 10 []
        (responseChatModelPreHandler 10 [] { toolCallCount := 10 }).2).2.history =
      [wrapUpMessage 10] := by
  obtain ⟨h1, _, h3, _⟩ :=
    responsePreHandler_wrapUp_spec 10 [] [] { toolCallCount := 10 } rfl (by decide)
  constructor
  · simpa [backfillToolCallID] using h1
  · rw [h3]
    have h1' : (responseChatModelPreHandler 10 [] { toolCallCount := 10 }).2.history =
        [wrapUpMessage 10] := by simpa [backfillToolCallID] using h1
    rw [h1']
    simp [backfillToolCallID, wrapUpMessage]

/-- **C1 counterexample.** The claim as stated also fires when
`toolCallLimitReached` is already true; but from such a state (flag set,
empty history, no inbound messages) the pre-handler appends *no* wrap-up
notice — the history stays empty — because `checkAndMarkToolLimit` only
reports a marking made now. -/
theorem responsePreHandler_already_marked_counterexample :
    (responseChatModelPreHandler 10 [] { toolCallLimitReached := true }).2.history = [] ∧
    (responseChatModelPreHandler 10 []
      { toolCallLimitReached := true }).2.toolCallLimitReached = true := by
  decide

/-- Helper for C9: the response pre-handler never changes the tool-call
counter. -/
theorem responsePreHandler_count (maxCfg : Int) (inMsgs : List Message) (s : AppState) :
    (responseChatModelPreHandler maxCfg inMsgs s).2.toolCallCount = s.toolCallCount := by
  by_cases hf : s.toolCallLimitReached <;>
    by_cases hc : normalizeMaxToolCalls maxCfg ≤ s.toolCallCount <;>
      simp [responseChatModelPreHandler, checkAndMarkToolLimit, hf, hc]

/-- Helper for C9: if the limit flag is clear after the response pre-handler
ran, it was clear before and the count was strictly below the normalized
maximum. -/
theorem responsePreHandler_flag_false {maxCfg : Int} {inMsgs : List Message} {s : AppState}
    (h : (responseChatModelPreHandler maxCfg inMsgs s).2.toolCallLimitReached = false) :
    s.toolCallLimitReached = false ∧ s.toolCallCount < normalizeMaxToolCalls maxCfg := by
  by_cases hf : s.toolCallLimitReached <;>
    by_cases hc : normalizeMaxToolCalls maxCfg ≤ s.toolCallCount <;>
      simp_all [responseChatModelPreHandler, checkAndMarkToolLimit, hf, hc]

/-- Helper for C9: the response post-handler changes neither the counter nor
the limit flag. -/
theorem responsePostHandler_preserves (mn : String) (out : Message) (s : AppState) :
    (responseChatModelPostHandler mn out s).2.toolCallCount = s.toolCallCount ∧
    (responseChatModelPostHandler mn out s).2.toolCallLimitReached = s.toolCallLimitReached := by
  cases h : out.usage <;> by_cases ht : out.toolCalls = [] <;>
    simp [responseChatModelPostHandler, CostEnabled, h, ht]

/-- Helper for C9: routing to the tool executor is only possible with the
limit flag clear. -/
theorem toolRoute_flag_false {b : Bool} {out : Message}
    (h : toolExecutorCondition b out = NodeToolExecutor) : b = false := by
  cases b
  · rfl
  · simp [toolExecutorCondition, END, NodeToolExecutor] at h

/-- Helper for C9: an increment from strictly below the normalized maximum
does not take the exceeded branch. -/
theorem increment_not_exceeded {s : AppState} {m : Int}
    (h : s.toolCallCount < normalizeMaxToolCalls m) :
    (incrementToolCallAndCheck s m).1 = false ∧
    (incrementToolCallAndCheck s m).2.toolCallCount = s.toolCallCount + 1 := by
  unfold incrementToolCallAndCheck
  have hng : ¬s.toolCallCount + 1 > normalizeMaxToolCalls m := by omega
  simp [hng]

/-- Helper for C9: the loop invariant.  Starting at or below the normalized
maximum, every tool step's increment stays at or below it and never reports
exceeded, and so does the final count. -/
theorem respToolLoop_invariant (m : Int) (mn : String) (rounds : List LoopRound) :
    ∀ s : AppState, s.toolCallCount ≤ normalizeMaxToolCalls m →
      (respToolLoop m mn s rounds).1.toolCallCount ≤ normalizeMaxToolCalls m ∧
      ∀ info ∈ (respToolLoop m mn s rounds).2,
        info.exceeded = false ∧ info.countAfterIncrement ≤ normalizeMaxToolCalls m := by
  induction rounds with
  | nil => intro s hs; exact ⟨hs, by simp [respToolLoop]⟩
  | cons round rest ih =>
    intro s hs
    simp only [respToolLoop]
    split
    · next hroute =>
      have hflag := toolRoute_flag_false hroute
      have hpost := responsePostHandler_preserves mn round.modelOut
        (responseChatModelPreHandler m round.inMsgs s).2
      have hpre : (responseChatModelPreHandler m round.inMsgs s).2.toolCallLimitReached
          = false := by
        rw [← hpost.2]; exact hflag
      have hlt : s.toolCallCount < normalizeMaxToolCalls m :=
        (responsePreHandler_flag_false hpre).2
      have hcount : (responseChatModelPostHandler mn round.modelOut
          (responseChatModelPreHandler m round.inMsgs s).2).2.toolCallCount
          = s.toolCallCount := by
        rw [hpost.1, responsePreHandler_count]
      have hinc := increment_not_exceeded (s := (responseChatModelPostHandler mn
        round.modelOut (responseChatModelPreHandler m round.inMsgs s).2).2) (m := m)
        (by rw [hcount]; exact hlt)
      have hnewcount : (toolExecutorPreHandler m (responseChatModelPostHandler mn
          round.modelOut (responseChatModelPreHandler m round.inMsgs s).2).2).2.toolCallCount
          ≤ normalizeMaxToolCalls m := by
        unfold toolExecutorPreHandler
        rw [hinc.2, hcount]
        omega
      obtain ⟨hfin, hall⟩ := ih _ hnewcount
      refine ⟨hfin, ?_⟩
      intro info hinfo
      rcases List.mem_cons.mp hinfo with rfl | hmem
      · exact ⟨hinc.1, hnewcount⟩
      · exact hall info hmem
    · next =>
      have hpost := responsePostHandler_preserves mn round.modelOut
        (responseChatModelPreHandler m round.inMsgs s).2
      constructor
      · rw [hpost.1, responsePreHandler_count]; exact hs
      · simp

/-- **C9.** Invariant of every reachable execution of the compiled response
⇄ tool loop within one invocation: starting from the per-invocation reset
(`NewInputConverterPreHandler` zeroes the counter and clears the flag), for
every sequence of model outputs and tool results the tool-call counter never
exceeds the normalized maximum — each tool step's increment lands at or
below it — and the exceeded branch of `incrementToolCallAndCheck` is never
taken, because entering the tool step requires the limit flag to be clear at
the branch, which forces the count below the maximum when the response
pre-handler last ran. -/
theorem toolCallCount_never_exceeds (m : Int) (mn : String) (q : QueryInput)
    (s : AppState) (rounds : List LoopRound) :
    (respToolLoop m mn (inputConverterPreHandler q s) rounds).1.toolCallCount
      ≤ normalizeMaxToolCalls m ∧
    ∀ info ∈ (respToolLoop m mn (inputConverterPreHandler q s) rounds).2,
      info.exceeded = false ∧ info.countAfterIncrement ≤ normalizeMaxToolCalls m := by
  apply respToolLoop_invariant
  have h0 : (inputConverterPreHandler q s).toolCallCount = 0 := by
    by_cases hc : s.conversationID = "" <;> simp [inputConverterPreHandler, hc]
  rw [h0]
  unfold normalizeMaxToolCalls DefaultMaxToolCalls
  split <;> omega

/-- Helper: `Q.lt` is irreflexive. -/
theorem Q.not_lt_self (a : Q) : ¬a.lt a := by
  rw [← Q.toRat_lt]
  exact lt_irrefl _

/-- Helper for C8: full characterisation of the primary-intent fold from an
arbitrary accumulator.  Either no element strictly beats the accumulator and
the fold returns it unchanged, or the fold returns the confidence and name
of the first element that attains the running maximum: no element is
strictly above it, and every earlier element is strictly below it. -/
theorem pifStep_foldl_spec (l : List Intent) :
    ∀ acc : Q × String,
      (l.foldl pifStep acc = acc ∧ ∀ it ∈ l, ¬acc.1.lt it.confidence) ∨
      (∃ i : Fin l.length,
        (l.foldl pifStep acc).1 = (l.get i).confidence ∧
        (l.foldl pifStep acc).2 = (l.get i).name ∧
        acc.1.lt (l.get i).confidence ∧
        (∀ j : Fin l.length, ¬(l.get i).confidence.lt (l.get j).confidence) ∧
        (∀ j : Fin l.length, (j : ℕ) < (i : ℕ) →
          (l.get j).confidence.lt (l.get i).confidence)) := by
  induction l with
  | nil => intro acc; left; exact ⟨rfl, by simp⟩
  | cons hd tl ih =>
    intro acc
    rw [List.foldl_cons]
    by_cases h : acc.1.lt hd.confidence
    · have hstep : pifStep acc hd = (hd.confidence, hd.name) := by simp [pifStep, h]
      rw [hstep]
      rcases ih (hd.confidence, hd.name) with ⟨heq, hall⟩ | ⟨i, h1, h2, hlt, hmax, hearly⟩
      · right
        refine ⟨⟨0, Nat.succ_pos _⟩, ?_, ?_, h, ?_, ?_⟩
        · rw [heq]
          rfl
        · rw [heq]
          rfl
        · rintro ⟨jv, hj⟩
          cases jv with
          | zero => exact Q.not_lt_self _
          | succ k =>
            exact hall _ (List.get_mem tl k (Nat.lt_of_succ_lt_succ hj))
        · rintro ⟨jv, hj⟩ hjlt
          exact absurd hjlt (Nat.not_lt_zero _)
      · right
        refine ⟨⟨i + 1, Nat.succ_lt_succ i.isLt⟩, h1, h2, ?_, ?_, ?_⟩
        · rw [← Q.toRat_lt] at h hlt ⊢
          exact lt_trans h hlt
        · rintro ⟨jv, hj⟩
          cases jv with
          | zero =>
            rw [← Q.toRat_lt] at hlt ⊢
            exact not_lt.mpr (le_of_lt hlt)
          | succ k => exact hmax ⟨k, Nat.lt_of_succ_lt_succ hj⟩
        · rintro ⟨jv, hj⟩ hjlt
          cases jv with
          | zero => exact hlt
          | succ k =>
            exact hearly ⟨k, Nat.lt_of_succ_lt_succ hj⟩ (Nat.lt_of_succ_lt_succ hjlt)
    · have hstep : pifStep acc hd = acc := by simp [pifStep, h]
      rw [hstep]
      rcases ih acc with ⟨heq, hall⟩ | ⟨i, h1, h2, hlt, hmax, hearly⟩
      · left
        refine ⟨heq, ?_⟩
        intro it hit
        rcases List.mem_cons.mp hit with rfl | hmem
        · exact h
        · exact hall it hmem
      · right
        refine ⟨⟨i + 1, Nat.succ_lt_succ i.isLt⟩, h1, h2, hlt, ?_, ?_⟩
        · rintro ⟨jv, hj⟩
          cases jv with
          | zero =>
            rw [← Q.toRat_lt] at h hlt ⊢
            push_neg at h ⊢
            exact le_trans h (le_of_lt hlt)
          | succ k => exact hmax ⟨k, Nat.lt_of_succ_lt_succ hj⟩
        · rintro ⟨jv, hj⟩ hjlt
          cases jv with
          | zero =>
            rw [← Q.toRat_lt] at h hlt ⊢
            push_neg at h
            exact lt_of_le_of_lt h hlt
          | succ k =>
            exact hearly ⟨k, Nat.lt_of_succ_lt_succ hj⟩ (Nat.lt_of_succ_lt_succ hjlt)

/-- Helper: a value accepted by `parseFloatInRange` lies within the given
bounds. -/
theorem parseFloatInRange_bounds {s : List Char} {lo hi v : Q}
    (h : parseFloatInRange s lo hi = some v) :
    lo.toRat ≤ v.toRat ∧ v.toRat ≤ hi.toRat := by
  unfold parseFloatInRange at h
  cases hp : parseGoFloat (goTrim s) with
  | none => rw [hp] at h; exact absurd h (by simp)
  | some w =>
    rw [hp] at h
    by_cases hc : w.lt lo ∨ hi.lt w
    · simp [hc] at h
    · simp only [hc, if_false, Option.some.injEq] at h
      subst h
      push_neg at hc
      rw [← Q.toRat_lt, not_lt] at hc
      obtain ⟨hc1, hc2⟩ := hc
      rw [← Q.toRat_lt, not_lt] at hc2
      exact ⟨hc1, hc2⟩

/-- Helper: an accepted intent record carries in-range confidence and
priority. -/
theorem parseIntentRecord_bounds {parts : List (List Char)} {it : Intent}
    (h : (parseIntentRecord parts).1 = some it) :
    (0 ≤ it.confidence.toRat ∧ it.confidence.toRat ≤ 1) ∧
    (0 ≤ it.priority.toRat ∧ it.priority.toRat ≤ 1) := by
  unfold parseIntentRecord at h
  split at h
  · simp at h
  · split at h
    · simp at h
    · cases hconf : parseFloatInRange (parts.getD 2 []) (Q.ofInt 0) (Q.ofInt 1) with
      | none => rw [hconf] at h; simp at h
      | some conf =>
        rw [hconf] at h
        cases hprio : parseFloatInRange (parts.getD 3 []) (Q.ofInt 0) (Q.ofInt 1) with
        | none => rw [hprio] at h; simp at h
        | some prio =>
          rw [hprio] at h
          simp only [Option.some.injEq] at h
          have hcb := parseFloatInRange_bounds hconf
          have hpb := parseFloatInRange_bounds hprio
          rw [Q.toRat_ofInt, Q.toRat_ofInt] at hcb hpb
          subst h
          constructor
          · exact_mod_cast hcb
          · exact_mod_cast hpb

/-- Helper: every intent collected by the record loop has in-range
confidence and priority, provided the ones already collected do. -/
theorem processRecords_intents_bounds (records : List (List Char)) :
    ∀ (processed : Nat) (resp : NLUResponse),
      (∀ it ∈ resp.intents,
        (0 ≤ it.confidence.toRat ∧ it.confidence.toRat ≤ 1) ∧
        (0 ≤ it.priority.toRat ∧ it.priority.toRat ≤ 1)) →
      ∀ it ∈ (processRecords processed resp records).intents,
        (0 ≤ it.confidence.toRat ∧ it.confidence.toRat ≤ 1) ∧
        (0 ≤ it.priority.toRat ∧ it.priority.toRat ≤ 1) := by
  induction records with
  | nil => intro _ resp h; exact h
  | cons record rest ih =>
    intro processed resp h
    simp only [processRecords]
    split
    · exact h
    · split
      · exact ih _ _ h
      · split
        · exact ih _ _ (by simpa using h)
        · rename_i rt _
          split
          · refine ih _ _ ?_
            intro it hit
            have hit' : it ∈ resp.intents ∨ (parseIntentRecord rt.parts).1 = some it := by
              simpa using hit
            rcases hit' with hmem | hsome
            · exact h it hmem
            · exact parseIntentRecord_bounds hsome
          · split
            · exact ih _ _ (by simpa using h)
            · split
              · exact ih _ _ (by simpa using h)
              · split
                · exact ih _ _ (by simpa using h)
                · exact ih _ _ (by simpa using h)

/-- Helper: every intent of a parse result has in-range confidence and
priority. -/
theorem ParseNLUResponse_intents_bounds (content : String) :
    ∀ it ∈ (ParseNLUResponse content).intents,
      (0 ≤ it.confidence.toRat ∧ it.confidence.toRat ≤ 1) ∧
      (0 ≤ it.priority.toRat ∧ it.priority.toRat ≤ 1) := by
  unfold ParseNLUResponse
  simp only []
  exact processRecords_intents_bounds _ 0 _ (by simp)

/-- Helper: how the derived fields of a parse result are computed from its
accepted intents. -/
theorem ParseNLUResponse_fields (content : String) :
    (ParseNLUResponse content).primaryIntent =
      (primaryIntentFold (ParseNLUResponse content).intents).2 ∧
    (ParseNLUResponse content).importanceScore =
      importanceScoreOf (ParseNLUResponse content).intents
        (ParseNLUResponse content).primaryIntent := by
  unfold ParseNLUResponse
  simp

/-- **C8.** For every parser input, `primaryIntent` equals the name of the
maximum-confidence intent among the accepted intents, with ties resolved to
the intent first encountered in input order (there is an index `i` whose
name is returned, no intent has strictly larger confidence, and every
earlier intent has strictly smaller confidence), and it is the empty string
when no intents were accepted. -/
theorem primaryIntent_spec (content : String) :
    ((ParseNLUResponse content).intents = [] →
      (ParseNLUResponse content).primaryIntent = "") ∧
    ((ParseNLUResponse content).intents ≠ [] →
      ∃ i : Fin (ParseNLUResponse content).intents.length,
        (ParseNLUResponse content).primaryIntent =
          ((ParseNLUResponse content).intents.get i).name ∧
        (∀ j : Fin (ParseNLUResponse content).intents.length,
          ((ParseNLUResponse content).intents.get j).confidence.toRat ≤
            ((ParseNLUResponse content).intents.get i).confidence.toRat) ∧
        (∀ j : Fin (ParseNLUResponse content).intents.length, (j : ℕ) < (i : ℕ) →
          ((ParseNLUResponse content).intents.get j).confidence.toRat <
            ((ParseNLUResponse content).intents.get i).confidence.toRat)) := by
  obtain ⟨hpi, -⟩ := ParseNLUResponse_fields content
  constructor
  · intro he
    rw [hpi]
    unfold primaryIntentFold
    rw [he]
    rfl
  · intro hne
    rcases pifStep_foldl_spec (ParseNLUResponse content).intents (Q.ofInt (-1), "") with
      ⟨-, hall⟩ | ⟨i, -, h2, -, hmax, hearly⟩
    · exfalso
      obtain ⟨hd, hmem⟩ := List.exists_mem_of_ne_nil _ hne
      have hnb := (ParseNLUResponse_intents_bounds content hd hmem).1.1
      have hle := Q.not_lt_iff_toRat.mp (hall hd hmem)
      rw [Q.toRat_ofInt] at hle
      push_cast at hle
      linarith
    · refine ⟨i, ?_, ?_, ?_⟩
      · rw [hpi]
        unfold primaryIntentFold
        exact h2
      · intro j
        exact Q.not_lt_iff_toRat.mp (hmax j)
      · intro j hj
        exact Q.toRat_lt.mpr (hearly j hj)

/-- **C3 (amended).** For every input string, the returned `importanceScore`
is zero when the accepted intent list is empty, and otherwise equals
`0.6 × confidence + 0.4 × priority` of the *first accepted intent whose name
equals `primaryIntent`* (the Go lookup walks the list and breaks at the
first name match); such an intent always exists when the list is non-empty.
The claim's reading — the confidence/priority of the maximum-confidence
intent itself — fails when a lower-confidence intent earlier in the input
shares the primary intent's name (see the counterexample). -/
theorem importanceScore_spec (content : String) :
    ((ParseNLUResponse content).intents = [] →
      (ParseNLUResponse content).importanceScore.toRat = 0) ∧
    (∀ it : Intent,
      (ParseNLUResponse content).intents.find?
          (fun i => i.name = (ParseNLUResponse content).primaryIntent) = some it →
      (ParseNLUResponse content).importanceScore.toRat =
        0.6 * it.confidence.toRat + 0.4 * it.priority.toRat) ∧
    ((ParseNLUResponse content).intents ≠ [] →
      ((ParseNLUResponse content).intents.find?
        (fun i => i.name = (ParseNLUResponse content).primaryIntent)).isSome) := by
  obtain ⟨hpi, hsc⟩ := ParseNLUResponse_fields content
  refine ⟨?_, ?_, ?_⟩
  · intro he
    rw [hsc]
    unfold importanceScoreOf
    rw [if_pos he, Q.toRat_ofInt]
    norm_num
  · intro it hfind
    have hne : (ParseNLUResponse content).intents ≠ [] := by
      intro he
      rw [he] at hfind
      simp at hfind
    rw [hsc]
    unfold importanceScoreOf
    rw [if_neg hne, hfind]
    rw [Q.toRat_add, Q.toRat_mul, Q.toRat_mul, Q.toRat_dec, Q.toRat_dec]
    push_cast
    ring_nf
  · intro hne
    rcases pifStep_foldl_spec (ParseNLUResponse content).intents (Q.ofInt (-1), "") with
      ⟨-, hall⟩ | ⟨i, -, h2, -, -, -⟩
    · exfalso
      obtain ⟨hd, hmem⟩ := List.exists_mem_of_ne_nil _ hne
      have hnb := (ParseNLUResponse_intents_bounds content hd hmem).1.1
      have hle := Q.not_lt_iff_toRat.mp (hall hd hmem)
      rw [Q.toRat_ofInt] at hle
      push_cast at hle
      linarith
    · rw [List.find?_isSome]
      refine ⟨(ParseNLUResponse content).intents.get i, List.get_mem _ _ _, ?_⟩
      simp only [decide_eq_true_eq]
      rw [hpi]
      unfold primaryIntentFold
      exact h2.symm

/-- **C3 counterexample.** On an input with two accepted intents that share
the name `"A"` — `(0.3, 0.0)` first, `(0.9, 1.0)` second — the primary
intent is the maximum-confidence one (the second), but the returned score is
`0.18 = 0.6×0.3 + 0.4×0.0`, taken from the *first* intent named `"A"`,
instead of the claimed `0.6×0.9 + 0.4×1.0 = 0.94`. -/
theorem importanceScore_counterexample :
    (ParseNLUResponse "(intent<||>A<||>0.3<||>0.0)##(intent<||>A<||>0.9<||>1.0)").intents.map
        (fun it => (it.name, it.confidence.toRat, it.priority.toRat)) =
      [("A", 0.3, 0), ("A", 0.9, 1)] ∧
    (ParseNLUResponse
      "(intent<||>A<||>0.3<||>0.0)##(intent<||>A<||>0.9<||>1.0)").primaryIntent = "A" ∧
    (ParseNLUResponse
      "(intent<||>A<||>0.3<||>0.0)##(intent<||>A<||>0.9<||>1.0)").importanceScore.toRat = 0.18 ∧
    (0.18 : ℚ) ≠ 0.6 * 0.9 + 0.4 * 1 := by
  have hint : (ParseNLUResponse
      "(intent<||>A<||>0.3<||>0.0)##(intent<||>A<||>0.9<||>1.0)").intents =
      [{ name := "A", confidence := ⟨3, 10, by norm_num⟩, priority := ⟨0, 10, by norm_num⟩ },
       { name := "A", confidence := ⟨9, 10, by norm_num⟩,
         priority := ⟨10, 10, by norm_num⟩ }] := by decide
  have hscore : (ParseNLUResponse
      "(intent<||>A<||>0.3<||>0.0)##(intent<||>A<||>0.9<||>1.0)").importanceScore =
      ⟨1800, 10000, by norm_num⟩ := by decide
  refine ⟨?_, by decide, ?_, by norm_num⟩
  · rw [hint]
    simp [Q.toRat]
    norm_num
  · rw [hscore]
    simp [Q.toRat]
    norm_num

/-- **C4 (amended).** A language record is accepted iff it has at least 4
fields, its code field — after trimming and (Unicode) lowercasing — is
exactly 3 lowercase ASCII letters, and its confidence field parses into
`[0,1]`; the stored code is that lowercased trim, and the entry's
`isPrimary` is true iff the *trimmed* flag field equals `"1"`.  The claim's
stronger reading — that the raw code field itself must already be lowercase
— fails because of the lowercasing (see the counterexample). -/
theorem parseLanguageRecord_spec (parts : List (List Char)) :
    ((parseLanguageRecord parts).1.isSome ↔
      4 ≤ parts.length ∧
      isISO639_3 (goToLower (goTrim (parts.getD 1 []))) = true ∧
      (parseFloatInRange (parts.getD 2 []) (Q.ofInt 0) (Q.ofInt 1)).isSome) ∧
    (∀ l : Language, (parseLanguageRecord parts).1 = some l →
      l.code = String.mk (goToLower (goTrim (parts.getD 1 []))) ∧
      parseFloatInRange (parts.getD 2 []) (Q.ofInt 0) (Q.ofInt 1) = some l.confidence ∧
      0 ≤ l.confidence.toRat ∧ l.confidence.toRat ≤ 1 ∧
      (l.isPrimary = true ↔ goTrim (parts.getD 3 []) = ['1'])) := by
  constructor
  · unfold parseLanguageRecord
    split
    · next hlen =>
      constructor
      · intro hs
        simp at hs
      · rintro ⟨hge, -, -⟩
        omega
    · next hlen =>
      split
      · next hiso =>
        simp only [Bool.not_eq_true] at hiso
        constructor
        · intro hs
          simp at hs
        · rintro ⟨-, htrue, -⟩
          rw [hiso] at htrue
          cases htrue
      · next hiso =>
        simp only [Bool.not_eq_true, Bool.not_eq_false] at hiso
        cases hconf : parseFloatInRange (parts.getD 2 []) (Q.ofInt 0) (Q.ofInt 1) with
        | none =>
          constructor
          · intro hs
            simp at hs
          · rintro ⟨-, -, hsome⟩
            simp at hsome
        | some conf =>
          constructor
          · intro _
            exact ⟨by omega, hiso, rfl⟩
          · intro _
            rfl
  · intro l hl
    unfold parseLanguageRecord at hl
    split at hl
    · simp at hl
    · split at hl
      · simp at hl
      · next hiso =>
        simp only [Bool.not_eq_true, Bool.not_eq_false] at hiso
        cases hconf : parseFloatInRange (parts.getD 2 []) (Q.ofInt 0) (Q.ofInt 1) with
        | none => rw [hconf] at hl; simp at hl
        | some conf =>
          rw [hconf] at hl
          simp only [Option.some.injEq] at hl
          subst hl
          have hb := parseFloatInRange_bounds hconf
          rw [Q.toRat_ofInt, Q.toRat_ofInt] at hb
          refine ⟨rfl, rfl, by exact_mod_cast hb.1, by exact_mod_cast hb.2, ?_⟩
          simp

/-- **C4 counterexample.** The raw code field `"ENG"` is not 3 lowercase
ASCII letters, yet the record `(language<||>ENG<||>0.5<||>1)` is accepted —
the parser lowercases the field before validating — and stored with code
`"eng"`, confidence `0.5`, and `isPrimary` true.  The lowering is Go's
Unicode per-rune mapping, not merely ASCII: the code field `"\u212Aab"`
(KELVIN SIGN, then `ab`; 5 bytes, none of them 3 lowercase ASCII letters)
is likewise accepted and stored as `"kab"`. -/
theorem language_lowercased_counterexample :
    isISO639_3 "ENG".data = false ∧
    (ParseNLUResponse "(language<||>ENG<||>0.5<||>1)").languages.map
        (fun l => (l.code, l.confidence.toRat, l.isPrimary)) =
      [("eng", 0.5, true)] ∧
    isISO639_3 "\u212Aab".data = false ∧
    (ParseNLUResponse "(language<||>\u212Aab<||>0.5<||>1)").languages.map
        (fun l => (l.code, l.confidence.toRat, l.isPrimary)) =
      [("kab", 0.5, true)] := by
  have h1 : (ParseNLUResponse "(language<||>ENG<||>0.5<||>1)").languages =
      [{ code := "eng", confidence := ⟨5, 10, by norm_num⟩, isPrimary := true }] := by
    decide
  have h2 : (ParseNLUResponse "(language<||>\u212Aab<||>0.5<||>1)").languages =
      [{ code := "kab", confidence := ⟨5, 10, by norm_num⟩, isPrimary := true }] := by
    decide
  refine ⟨by decide, ?_, by decide, ?_⟩
  · rw [h1]
    simp [Q.toRat]
    norm_num
  · rw [h2]
    simp [Q.toRat]
    norm_num

end Chative
